import Mathlib

/-!
Verification of the LinkMatch confidential score ledger and its client
workflows, as a shallow embedding of the repository's code.

The ledger side embeds the Solidity contract `LinkMatch`
(`src/backend/test/LinkMatch.ts`, appended contract source): the state is the
`playerResults` mapping, the `players` array, the `hasSubmitted` mapping, and
an explicit list of ACL grants recording every `FHE.allowThis` / `FHE.allow`
call.  The FHE primitive is abstracted as an injected `Backend` capability
providing `decrypt` and ciphertext `maxCt` with the algebraic property
`decrypt (maxCt a b) = max (decrypt a) (decrypt b)`.

The client side embeds the `useLinkMatch` hook
(`src/frontend/hooks/useLinkMatch.tsx`): the submission workflow with its
staleness snapshot, and the decryption workflow with its cached-cleartext
short-circuit, together with the `canDecrypt` predicate that gates the
decrypt button in the page component.
-/

/-- Account identifier (an address), modelled as a natural number. -/
abbrev Address := Nat

/-- Injected encrypted-value capability: `decrypt` gives the plaintext of a
ciphertext handle, `maxCt` is the homomorphic maximum (`FHE.max`), and
`decrypt_maxCt` is the assumed algebraic property relating them. -/
structure Backend (C : Type) where
  decrypt : C → Nat
  maxCt : C → C → C
  decrypt_maxCt : ∀ a b, decrypt (maxCt a b) = max (decrypt a) (decrypt b)

/-- Principal that may be granted ACL access to a ciphertext handle:
the ledger contract itself (`FHE.allowThis`) or a player address
(`FHE.allow(handle, msg.sender)`). -/
inductive Principal where
  | contract : Principal
  | player : Address → Principal
deriving DecidableEq, Repr

/-- The contract's `EncryptedGameResult` struct: encrypted score handle,
player address, and submission timestamp. -/
structure EncryptedGameResult (C : Type) where
  score : C
  player : Address
  timestamp : Nat
deriving DecidableEq, Repr

/-- The contract's storage: `playerResults` mapping (total, with the Solidity
zero-value default), the `players` array, the `hasSubmitted` mapping, and the
accumulated list of ACL grants `(handle, principal)`. -/
structure LedgerState (C : Type) where
  playerResults : Address → EncryptedGameResult C
  players : List Address
  hasSubmitted : Address → Bool
  acl : List (C × Principal)

/-- Freshly deployed contract: all mappings at their Solidity defaults
(`z` is the zero ciphertext handle), empty players array, no grants. -/
def initState {C : Type} (z : C) : LedgerState C :=
  { playerResults := fun _ => ⟨z, 0, 0⟩
    players := []
    hasSubmitted := fun _ => false
    acl := [] }

/-- `LinkMatch.submitGameResult`: grant ACL on the incoming handle to the
contract and the sender; on a first submission push the sender onto `players`,
mark `hasSubmitted`, and store the score directly; on a subsequent submission
store `FHE.max(newScore, currentScore)` and grant ACL on that fresh handle. -/
def submitGameResult {C : Type} (B : Backend C) (s : LedgerState C)
    (sender : Address) (newScore : C) (now : Nat) : LedgerState C :=
  let aclIn := (newScore, Principal.contract) :: (newScore, Principal.player sender) :: s.acl
  if s.hasSubmitted sender then
    let currentScore := (s.playerResults sender).score
    let highestScore := B.maxCt newScore currentScore
    { playerResults := fun a =>
        if a = sender then ⟨highestScore, sender, now⟩ else s.playerResults a
      players := s.players
      hasSubmitted := s.hasSubmitted
      acl := (highestScore, Principal.contract) ::
             (highestScore, Principal.player sender) :: aclIn }
  else
    { playerResults := fun a =>
        if a = sender then ⟨newScore, sender, now⟩ else s.playerResults a
      players := s.players ++ [sender]
      hasSubmitted := fun a => if a = sender then true else s.hasSubmitted a
      acl := aclIn }

/-- The two `require` failures of the contract's view functions. -/
inductive LedgerError where
  | notSubmitted
  | indexOutOfBounds
deriving DecidableEq, Repr

/-- `LinkMatch.getPlayerResult`: requires `hasSubmitted[player]`, then returns
the stored encrypted score. -/
def getPlayerResult {C : Type} (s : LedgerState C) (player : Address) :
    Except LedgerError C :=
  if s.hasSubmitted player then .ok (s.playerResults player).score
  else .error .notSubmitted

/-- `LinkMatch.getPlayerCount`: length of the `players` array. -/
def getPlayerCount {C : Type} (s : LedgerState C) : Nat :=
  s.players.length

/-- `LinkMatch.getPlayerByIndex`: requires `index < players.length`, then
returns `players[index]`. -/
def getPlayerByIndex {C : Type} (s : LedgerState C) (index : Nat) :
    Except LedgerError Address :=
  if h : index < s.players.length then .ok (s.players.get ⟨index, h⟩)
  else .error .indexOutOfBounds

/-- `LinkMatch.checkPlayerSubmitted`: reads the `hasSubmitted` mapping. -/
def checkPlayerSubmitted {C : Type} (s : LedgerState C) (player : Address) : Bool :=
  s.hasSubmitted player

/-- `LinkMatch.getAllEncryptedScores`: the `players` array paired with each
player's stored encrypted score, in array order. -/
def getAllEncryptedScores {C : Type} (s : LedgerState C) :
    List Address × List C :=
  (s.players, s.players.map fun p => (s.playerResults p).score)

/-- A concrete backend instance on plaintext naturals, used for witnesses:
handles are the plaintexts themselves. -/
def natBackend : Backend Nat :=
  ⟨fun c => c, fun a b => max a b, fun _ _ => rfl⟩

/-- Claim C2: for a participant who has already submitted, a further
`submitGameResult` call succeeds (there is no duplicate rejection in the
contract): the stored record becomes the ciphertext maximum of the new value
and the existing handle with `recorded_at` set to the current time, and the
`players` array — hence the participant's position in it — is unchanged. -/
theorem submit_subsequent_max_combine {C : Type} (B : Backend C)
    (s : LedgerState C) (sender : Address) (c : C) (now : Nat)
    (h : s.hasSubmitted sender = true) :
    (submitGameResult B s sender c now).playerResults sender
        = ⟨B.maxCt c (s.playerResults sender).score, sender, now⟩
      ∧ (submitGameResult B s sender c now).players = s.players
      ∧ (submitGameResult B s sender c now).hasSubmitted = s.hasSubmitted := by
  simp [submitGameResult, h]

theorem submit_subsequent_max_combine_witness :
    (submitGameResult natBackend
        (submitGameResult natBackend (initState 0) 1 5 10) 1 3 20).playerResults 1
        = ⟨max 3 5, 1, 20⟩
      ∧ (submitGameResult natBackend
          (submitGameResult natBackend (initState 0) 1 5 10) 1 3 20).players
        = (submitGameResult natBackend (initState 0) 1 5 10).players
      ∧ (submitGameResult natBackend
          (submitGameResult natBackend (initState 0) 1 5 10) 1 3 20).hasSubmitted
        = (submitGameResult natBackend (initState 0) 1 5 10).hasSubmitted :=
  submit_subsequent_max_combine natBackend
    (submitGameResult natBackend (initState 0) 1 5 10) 1 3 20 rfl

/-- Claim C4: immediately after any `submitGameResult` (first or subsequent)
the stored handle carries ACL grants for the contract and for the submitting
participant, and every grant added by the call names only those two
principals. -/
theorem submit_acl_grants {C : Type} (B : Backend C) (s : LedgerState C)
    (sender : Address) (c : C) (now : Nat) :
    (((submitGameResult B s sender c now).playerResults sender).score,
        Principal.contract) ∈ (submitGameResult B s sender c now).acl
      ∧ (((submitGameResult B s sender c now).playerResults sender).score,
          Principal.player sender) ∈ (submitGameResult B s sender c now).acl
      ∧ ∀ g ∈ (submitGameResult B s sender c now).acl,
          g ∈ s.acl ∨ g.2 = Principal.contract ∨ g.2 = Principal.player sender := by
  by_cases h : s.hasSubmitted sender = true
  · refine ⟨?_, ?_, ?_⟩
    · simp [submitGameResult, h]
    · simp [submitGameResult, h]
    · intro g hg
      simp only [submitGameResult, h, if_pos] at hg
      simp only [List.mem_cons] at hg
      rcases hg with h1 | h1 | h1 | h1 | h1
      · right; left; rw [h1]
      · right; right; rw [h1]
      · right; left; rw [h1]
      · right; right; rw [h1]
      · left; exact h1
  · rw [Bool.not_eq_true] at h
    refine ⟨?_, ?_, ?_⟩
    · simp [submitGameResult, h]
    · simp [submitGameResult, h]
    · intro g hg
      simp only [submitGameResult, h, Bool.false_eq_true, if_neg,
        not_false_eq_true] at hg
      simp only [List.mem_cons] at hg
      rcases hg with h1 | h1 | h1
      · right; left; rw [h1]
      · right; right; rw [h1]
      · left; exact h1

/-- One successful `submitGameResult` transaction: the authenticated sender,
the ciphertext handle it carried, and the block timestamp. -/
structure SubmitEv (C : Type) where
  sender : Address
  cipher : C
  time : Nat
deriving DecidableEq, Repr

/-- Replay a list of submission transactions against a ledger state. -/
def applyEvents {C : Type} (B : Backend C) (s : LedgerState C) :
    List (SubmitEv C) → LedgerState C
  | [] => s
  | e :: rest => applyEvents B (submitGameResult B s e.sender e.cipher e.time) rest

/-- The senders of a transaction list in order of first occurrence, appended
to an accumulator: the order in which `players.push` fires. -/
def firstSubmitOrder {C : Type} : List (SubmitEv C) → List Address → List Address
  | [], acc => acc
  | e :: rest, acc =>
      firstSubmitOrder rest (if e.sender ∈ acc then acc else acc ++ [e.sender])

/-- Ledger state reached from a fresh deployment by a list of submissions. -/
def ledgerOf {C : Type} (B : Backend C) (z : C) (evs : List (SubmitEv C)) :
    LedgerState C :=
  applyEvents B (initState z) evs

/-- Bookkeeping invariant of the contract: the `players` array has no
duplicates and lists exactly the addresses with `hasSubmitted` set. -/
def LedgerInv {C : Type} (s : LedgerState C) : Prop :=
  s.players.Nodup ∧ ∀ p, s.hasSubmitted p = true ↔ p ∈ s.players

theorem submit_hasSubmitted {C : Type} (B : Backend C) (s : LedgerState C)
    (x p : Address) (c : C) (t : Nat) :
    (submitGameResult B s x c t).hasSubmitted p
      = (s.hasSubmitted p || decide (p = x)) := by
  by_cases hx : s.hasSubmitted x <;> by_cases hp : p = x <;>
    simp [submitGameResult, hx, hp]

theorem submit_players {C : Type} (B : Backend C) (s : LedgerState C)
    (x : Address) (c : C) (t : Nat) :
    (submitGameResult B s x c t).players
      = if s.hasSubmitted x then s.players else s.players ++ [x] := by
  by_cases hx : s.hasSubmitted x <;> simp [submitGameResult, hx]

theorem ledgerInv_init {C : Type} (z : C) : LedgerInv (initState z) := by
  constructor
  · exact List.nodup_nil
  · intro p
    simp [initState]

theorem ledgerInv_submit {C : Type} (B : Backend C) (s : LedgerState C)
    (x : Address) (c : C) (t : Nat) (hs : LedgerInv s) :
    LedgerInv (submitGameResult B s x c t) := by
  obtain ⟨hnd, hmem⟩ := hs
  by_cases hx : s.hasSubmitted x
  · constructor
    · rw [submit_players, if_pos hx]; exact hnd
    · intro p
      rw [submit_hasSubmitted, submit_players, if_pos hx]
      by_cases hp : p = x
      · subst hp
        simp [hx, hmem p |>.mp hx]
      · simp [hp, hmem p]
  · have hxmem : x ∉ s.players := fun hc => hx ((hmem x).mpr hc)
    constructor
    · rw [submit_players, if_neg hx]
      rw [List.nodup_append]
      exact ⟨hnd, List.nodup_singleton x, by
        intro a ha hb
        simp only [List.mem_singleton] at hb
        exact hxmem (hb ▸ ha)⟩
    · intro p
      rw [submit_hasSubmitted, submit_players, if_neg hx]
      by_cases hp : p = x
      · subst hp
        simp
      · simp [hp, hmem p]

theorem applyEvents_hasSubmitted {C : Type} (B : Backend C)
    (evs : List (SubmitEv C)) :
    ∀ (s : LedgerState C) (p : Address),
      (applyEvents B s evs).hasSubmitted p = true
        ↔ (s.hasSubmitted p = true ∨ p ∈ evs.map SubmitEv.sender) := by
  induction evs with
  | nil =>
      intro s p
      simp [applyEvents]
  | cons e rest ih =>
      intro s p
      rw [applyEvents, ih, submit_hasSubmitted]
      simp only [List.map_cons, List.mem_cons, Bool.or_eq_true,
        decide_eq_true_eq]
      tauto

theorem applyEvents_inv {C : Type} (B : Backend C) (evs : List (SubmitEv C)) :
    ∀ (s : LedgerState C), LedgerInv s → LedgerInv (applyEvents B s evs) := by
  induction evs with
  | nil =>
      intro s hs
      exact hs
  | cons e rest ih =>
      intro s hs
      exact ih _ (ledgerInv_submit B s e.sender e.cipher e.time hs)

theorem applyEvents_players {C : Type} (B : Backend C)
    (evs : List (SubmitEv C)) :
    ∀ (s : LedgerState C), LedgerInv s →
      (applyEvents B s evs).players = firstSubmitOrder evs s.players := by
  induction evs with
  | nil =>
      intro s _
      rfl
  | cons e rest ih =>
      intro s hs
      rw [applyEvents, firstSubmitOrder,
        ih _ (ledgerInv_submit B s e.sender e.cipher e.time hs)]
      congr 1
      rw [submit_players]
      by_cases hx : s.hasSubmitted e.sender
      · rw [if_pos hx, if_pos ((hs.2 e.sender).mp hx)]
      · rw [if_neg hx, if_neg (fun hc => hx ((hs.2 e.sender).mpr hc))]

theorem ledgerOf_inv {C : Type} (B : Backend C) (z : C)
    (evs : List (SubmitEv C)) : LedgerInv (ledgerOf B z evs) :=
  applyEvents_inv B evs _ (ledgerInv_init z)

theorem ledgerOf_players {C : Type} (B : Backend C) (z : C)
    (evs : List (SubmitEv C)) :
    (ledgerOf B z evs).players = firstSubmitOrder evs [] :=
  applyEvents_players B evs _ (ledgerInv_init z)

theorem ledgerOf_hasSubmitted {C : Type} (B : Backend C) (z : C)
    (evs : List (SubmitEv C)) (p : Address) :
    (ledgerOf B z evs).hasSubmitted p = true ↔ p ∈ evs.map SubmitEv.sender := by
  rw [ledgerOf, applyEvents_hasSubmitted]
  simp [initState]

/-- Claim C5: for every reachable ledger state, a first submission appends
exactly the submitting participant to the `players` index, a subsequent
submission leaves `getPlayerCount` unchanged, the index has at most one entry
per participant, and `getAllEncryptedScores` enumerates the participants in
first-submission order with length `getPlayerCount`. -/
theorem participant_index_inv {C : Type} (B : Backend C) (z : C)
    (evs : List (SubmitEv C)) :
    (ledgerOf B z evs).players.Nodup
      ∧ (ledgerOf B z evs).players = firstSubmitOrder evs []
      ∧ (getAllEncryptedScores (ledgerOf B z evs)).1 = (ledgerOf B z evs).players
      ∧ (getAllEncryptedScores (ledgerOf B z evs)).1.length
          = getPlayerCount (ledgerOf B z evs)
      ∧ (∀ (p : Address) (c : C) (t : Nat),
          (ledgerOf B z evs).hasSubmitted p = false →
          (submitGameResult B (ledgerOf B z evs) p c t).players
            = (ledgerOf B z evs).players ++ [p])
      ∧ (∀ (p : Address) (c : C) (t : Nat),
          (ledgerOf B z evs).hasSubmitted p = true →
          getPlayerCount (submitGameResult B (ledgerOf B z evs) p c t)
            = getPlayerCount (ledgerOf B z evs)) := by
  refine ⟨(ledgerOf_inv B z evs).1, ledgerOf_players B z evs, rfl, ?_, ?_, ?_⟩
  · simp [getAllEncryptedScores, getPlayerCount]
  · intro p c t hp
    rw [submit_players, if_neg (by rw [hp]; exact Bool.false_ne_true)]
  · intro p c t hp
    unfold getPlayerCount
    rw [submit_players, if_pos hp]

theorem participant_index_inv_witness :
    (submitGameResult natBackend (ledgerOf natBackend 0 [⟨1, 5, 0⟩]) 2 7 1).players
        = (ledgerOf natBackend 0 [⟨1, 5, 0⟩]).players ++ [2]
      ∧ getPlayerCount
          (submitGameResult natBackend (ledgerOf natBackend 0 [⟨1, 5, 0⟩]) 1 7 1)
        = getPlayerCount (ledgerOf natBackend 0 [⟨1, 5, 0⟩]) :=
  ⟨(participant_index_inv natBackend 0 [⟨1, 5, 0⟩]).2.2.2.2.1 2 7 1 rfl,
   (participant_index_inv natBackend 0 [⟨1, 5, 0⟩]).2.2.2.2.2 1 7 1 rfl⟩

/-- One participant's submissions `(ciphertext, block time)` applied in
order through `submitGameResult`. -/
def submitAll {C : Type} (B : Backend C) (s : LedgerState C) (sender : Address)
    (cs : List (C × Nat)) : LedgerState C :=
  applyEvents B s (cs.map fun ct => ⟨sender, ct.1, ct.2⟩)

theorem le_foldl_max (l : List Nat) : ∀ a : Nat, a ≤ l.foldl max a := by
  induction l with
  | nil => intro a; exact Nat.le_refl a
  | cons x xs ih =>
      intro a
      exact Nat.le_trans (Nat.le_max_left a x) (ih (max a x))

theorem mem_le_foldl_max (l : List Nat) :
    ∀ a : Nat, ∀ x ∈ l, x ≤ l.foldl max a := by
  induction l with
  | nil =>
      intro a x hx
      cases hx
  | cons y ys ih =>
      intro a x hx
      rcases List.mem_cons.mp hx with h | h
      · subst h
        exact Nat.le_trans (Nat.le_max_right a x) (le_foldl_max ys (max a x))
      · exact ih (max a y) x h

theorem foldl_max_mem (l : List Nat) :
    ∀ a : Nat, l.foldl max a ∈ l ∨ l.foldl max a = a := by
  induction l with
  | nil =>
      intro a
      right
      rfl
  | cons y ys ih =>
      intro a
      rcases ih (max a y) with h | h
      · left
        exact List.mem_cons_of_mem y h
      · by_cases hay : a ≤ y
        · left
          rw [List.foldl_cons, h, Nat.max_eq_right hay]
          exact List.mem_cons_self y ys
        · right
          rw [List.foldl_cons, h, Nat.max_eq_left (Nat.le_of_not_le hay)]

theorem foldl_max_perm {l l' : List Nat} (h : l.Perm l') :
    ∀ a : Nat, l.foldl max a = l'.foldl max a := by
  induction h with
  | nil =>
      intro a
      rfl
  | cons x _ ih =>
      intro a
      rw [List.foldl_cons, List.foldl_cons]
      exact ih (max a x)
  | swap x y l =>
      intro a
      simp only [List.foldl_cons]
      congr 1
      exact sup_right_comm a y x
  | trans _ _ ih1 ih2 =>
      intro a
      exact (ih1 a).trans (ih2 a)

theorem submitAll_hasSubmitted_step {C : Type} (B : Backend C)
    (s : LedgerState C) (sender : Address) (c : C) (t : Nat) :
    (submitGameResult B s sender c t).hasSubmitted sender = true := by
  rw [submit_hasSubmitted]
  simp

theorem submitAll_decrypt_foldl {C : Type} (B : Backend C) (sender : Address)
    (cs : List (C × Nat)) :
    ∀ s : LedgerState C, s.hasSubmitted sender = true →
      B.decrypt ((submitAll B s sender cs).playerResults sender).score
        = (cs.map fun ct => B.decrypt ct.1).foldl max
            (B.decrypt (s.playerResults sender).score) := by
  induction cs with
  | nil =>
      intro s _
      rfl
  | cons ct rest ih =>
      intro s hs
      show B.decrypt ((submitAll B (submitGameResult B s sender ct.1 ct.2)
          sender rest).playerResults sender).score = _
      rw [ih _ (submitAll_hasSubmitted_step B s sender ct.1 ct.2)]
      have h2 : ((submitGameResult B s sender ct.1 ct.2).playerResults sender).score
          = B.maxCt ct.1 (s.playerResults sender).score := by
        simp [submitGameResult, hs]
      rw [h2, B.decrypt_maxCt, List.map_cons, List.foldl_cons]
      congr 1
      exact Nat.max_comm _ _

theorem submitAll_decrypt_foldl_zero {C : Type} (B : Backend C)
    (s : LedgerState C) (sender : Address) (c : C × Nat)
    (rest : List (C × Nat)) (hns : s.hasSubmitted sender = false) :
    B.decrypt ((submitAll B s sender (c :: rest)).playerResults sender).score
      = ((c :: rest).map fun ct => B.decrypt ct.1).foldl max 0 := by
  show B.decrypt ((submitAll B (submitGameResult B s sender c.1 c.2)
      sender rest).playerResults sender).score = _
  rw [submitAll_decrypt_foldl B sender rest _
    (submitAll_hasSubmitted_step B s sender c.1 c.2)]
  have h1 : ((submitGameResult B s sender c.1 c.2).playerResults sender).score
      = c.1 := by
    simp [submitGameResult, hns]
  rw [h1, List.map_cons, List.foldl_cons, Nat.zero_max]

theorem submitAll_hasSubmitted_of_ne_nil {C : Type} (B : Backend C)
    (s : LedgerState C) (sender : Address) (cs : List (C × Nat))
    (hne : cs ≠ []) :
    (submitAll B s sender cs).hasSubmitted sender = true := by
  rw [submitAll, applyEvents_hasSubmitted]
  right
  obtain ⟨ct, hct⟩ := List.exists_mem_of_ne_nil cs hne
  rw [List.map_map]
  exact List.mem_map.mpr ⟨ct, hct, rfl⟩

/-- Claim C1: starting from a state where the participant has not yet
submitted, applying any nonempty sequence of submissions makes the stored
record (as returned by `getPlayerResult`) decrypt to the maximum of the
submitted plaintexts — its decryption is one of them and dominates all of
them — and any permutation of the sequence yields the same decryption. -/
theorem best_score_is_max {C : Type} (B : Backend C) (s : LedgerState C)
    (sender : Address) (cs cs' : List (C × Nat))
    (hns : s.hasSubmitted sender = false) (hne : cs ≠ [])
    (hperm : cs.Perm cs') :
    getPlayerResult (submitAll B s sender cs) sender
        = .ok ((submitAll B s sender cs).playerResults sender).score
      ∧ B.decrypt ((submitAll B s sender cs).playerResults sender).score
          ∈ cs.map (fun ct => B.decrypt ct.1)
      ∧ (∀ x ∈ cs.map (fun ct => B.decrypt ct.1),
          x ≤ B.decrypt ((submitAll B s sender cs).playerResults sender).score)
      ∧ B.decrypt ((submitAll B s sender cs').playerResults sender).score
          = B.decrypt ((submitAll B s sender cs).playerResults sender).score := by
  obtain ⟨c, rest, rfl⟩ : ∃ c rest, cs = c :: rest := by
    cases cs with
    | nil => exact absurd rfl hne
    | cons c rest => exact ⟨c, rest, rfl⟩
  have hfold := submitAll_decrypt_foldl_zero B s sender c rest hns
  have hne' : cs' ≠ [] := by
    intro hc
    subst hc
    exact absurd hperm.symm (by simp)
  obtain ⟨c', rest', rfl⟩ : ∃ c' rest', cs' = c' :: rest' := by
    cases cs' with
    | nil => exact absurd rfl hne'
    | cons c' rest' => exact ⟨c', rest', rfl⟩
  have hfold' := submitAll_decrypt_foldl_zero B s sender c' rest' hns
  refine ⟨?_, ?_, ?_, ?_⟩
  · rw [getPlayerResult,
      if_pos (submitAll_hasSubmitted_of_ne_nil B s sender (c :: rest) hne)]
  · rw [hfold]
    rcases foldl_max_mem (((c :: rest)).map fun ct => B.decrypt ct.1) 0 with h | h
    · exact h
    · rw [h]
      have h0 : B.decrypt c.1 ≤ 0 := by
        have := mem_le_foldl_max ((c :: rest).map fun ct => B.decrypt ct.1) 0
          (B.decrypt c.1) (by simp)
        rw [h] at this
        exact this
      have : B.decrypt c.1 = 0 := Nat.le_zero.mp h0
      simp [← this]
  · intro x hx
    rw [hfold]
    exact mem_le_foldl_max _ 0 x hx
  · rw [hfold, hfold']
    exact (foldl_max_perm (hperm.map fun ct => B.decrypt ct.1) 0).symm

theorem best_score_is_max_witness :
    getPlayerResult (submitAll natBackend (initState 0) 1 [(3, 0), (7, 1)]) 1
        = .ok ((submitAll natBackend (initState 0) 1
            [(3, 0), (7, 1)]).playerResults 1).score
      ∧ natBackend.decrypt ((submitAll natBackend (initState 0) 1
            [(3, 0), (7, 1)]).playerResults 1).score
          ∈ [(3, 0), (7, 1)].map (fun ct => natBackend.decrypt ct.1)
      ∧ (∀ x ∈ [(3, 0), (7, 1)].map (fun ct => natBackend.decrypt ct.1),
          x ≤ natBackend.decrypt ((submitAll natBackend (initState 0) 1
            [(3, 0), (7, 1)]).playerResults 1).score)
      ∧ natBackend.decrypt ((submitAll natBackend (initState 0) 1
            [(7, 1), (3, 0)]).playerResults 1).score
          = natBackend.decrypt ((submitAll natBackend (initState 0) 1
            [(3, 0), (7, 1)]).playerResults 1).score :=
  best_score_is_max natBackend (initState 0) 1 [(3, 0), (7, 1)] [(7, 1), (3, 0)]
    rfl (by decide) (by decide)

/-- Claim C6: over any reachable ledger state, `getPlayerResult p` fails with
the not-submitted error exactly when `p` appears in no submission; in that
case `checkPlayerSubmitted p` is false and `p` is absent from the
enumeration; and when `p` has submitted, `getPlayerResult p` returns the
stored handle without error. -/
theorem getPlayerResult_notFound_iff {C : Type} (B : Backend C) (z : C)
    (evs : List (SubmitEv C)) (p : Address) :
    (getPlayerResult (ledgerOf B z evs) p = .error .notSubmitted
        ↔ p ∉ evs.map SubmitEv.sender)
      ∧ (p ∉ evs.map SubmitEv.sender →
          checkPlayerSubmitted (ledgerOf B z evs) p = false
            ∧ p ∉ (getAllEncryptedScores (ledgerOf B z evs)).1)
      ∧ (p ∈ evs.map SubmitEv.sender →
          getPlayerResult (ledgerOf B z evs) p
            = .ok ((ledgerOf B z evs).playerResults p).score) := by
  have hsub := ledgerOf_hasSubmitted B z evs p
  refine ⟨?_, ?_, ?_⟩
  · constructor
    · intro herr hmem
      rw [getPlayerResult, if_pos (hsub.mpr hmem)] at herr
      exact Except.noConfusion herr
    · intro hmem
      rw [getPlayerResult, if_neg]
      intro hc
      exact hmem (hsub.mp hc)
  · intro hmem
    have hfalse : (ledgerOf B z evs).hasSubmitted p = false := by
      rw [Bool.eq_false_iff]
      intro hc
      exact hmem (hsub.mp hc)
    refine ⟨hfalse, ?_⟩
    intro hc
    have : (ledgerOf B z evs).hasSubmitted p = true :=
      ((ledgerOf_inv B z evs).2 p).mpr hc
    rw [hfalse] at this
    exact Bool.false_ne_true this
  · intro hmem
    rw [getPlayerResult, if_pos (hsub.mpr hmem)]

theorem getPlayerResult_notFound_iff_witness :
    (getPlayerResult (ledgerOf natBackend 0 [⟨1, 5, 0⟩]) 2
        = .error .notSubmitted)
      ∧ (checkPlayerSubmitted (ledgerOf natBackend 0 [⟨1, 5, 0⟩]) 2 = false
          ∧ 2 ∉ (getAllEncryptedScores (ledgerOf natBackend 0 [⟨1, 5, 0⟩])).1)
      ∧ getPlayerResult (ledgerOf natBackend 0 [⟨1, 5, 0⟩]) 1
        = .ok ((ledgerOf natBackend 0 [⟨1, 5, 0⟩]).playerResults 1).score :=
  ⟨(getPlayerResult_notFound_iff natBackend 0 [⟨1, 5, 0⟩] 2).1.mpr (by decide),
   (getPlayerResult_notFound_iff natBackend 0 [⟨1, 5, 0⟩] 2).2.1 (by decide),
   (getPlayerResult_notFound_iff natBackend 0 [⟨1, 5, 0⟩] 1).2.2 (by decide)⟩

/-- Claim C7: over any reachable ledger state, `getPlayerByIndex i` fails
with the out-of-bounds error exactly when `i ≥ getPlayerCount`; in particular
it fails at index `getPlayerCount` itself; and for `i < getPlayerCount` it
returns (without error) the i-th participant in first-submission order. -/
theorem getPlayerByIndex_range {C : Type} (B : Backend C) (z : C)
    (evs : List (SubmitEv C)) (i : Nat) :
    (getPlayerByIndex (ledgerOf B z evs) i = .error .indexOutOfBounds
        ↔ getPlayerCount (ledgerOf B z evs) ≤ i)
      ∧ getPlayerByIndex (ledgerOf B z evs) (getPlayerCount (ledgerOf B z evs))
          = .error .indexOutOfBounds
      ∧ ∀ a : Address,
          (getPlayerByIndex (ledgerOf B z evs) i = .ok a
            ↔ (firstSubmitOrder evs [])[i]? = some a) := by
  have hpl := ledgerOf_players B z evs
  unfold getPlayerCount
  refine ⟨?_, ?_, ?_⟩
  · constructor
    · intro herr
      by_contra hlt
      rw [getPlayerByIndex, dif_pos (Nat.lt_of_not_le hlt)] at herr
      exact Except.noConfusion herr
    · intro hle
      rw [getPlayerByIndex, dif_neg (Nat.not_lt_of_le hle)]
  · rw [getPlayerByIndex, dif_neg (Nat.lt_irrefl _)]
  · intro a
    by_cases h : i < (ledgerOf B z evs).players.length
    · rw [getPlayerByIndex, dif_pos h]
      rw [← hpl, List.getElem?_eq_getElem h]
      constructor
      · intro hok
        have := Except.ok.inj hok
        rw [← this]
        rfl
      · intro hsome
        have := Option.some.inj hsome
        rw [List.get_eq_getElem, this]
    · rw [getPlayerByIndex, dif_neg h]
      rw [← hpl, List.getElem?_eq_none (Nat.le_of_not_lt h)]
      constructor
      · intro hc
        exact Except.noConfusion hc
      · intro hc
        exact Option.noConfusion hc

theorem getPlayerByIndex_range_witness :
    (getPlayerByIndex (ledgerOf natBackend 0 [⟨1, 5, 0⟩, ⟨2, 9, 1⟩]) 3
        = .error .indexOutOfBounds)
      ∧ getPlayerByIndex (ledgerOf natBackend 0 [⟨1, 5, 0⟩, ⟨2, 9, 1⟩])
          (getPlayerCount (ledgerOf natBackend 0 [⟨1, 5, 0⟩, ⟨2, 9, 1⟩]))
          = .error .indexOutOfBounds
      ∧ getPlayerByIndex (ledgerOf natBackend 0 [⟨1, 5, 0⟩, ⟨2, 9, 1⟩]) 0
          = .ok 1 :=
  ⟨(getPlayerByIndex_range natBackend 0 [⟨1, 5, 0⟩, ⟨2, 9, 1⟩] 3).1.mpr
      (by decide),
   (getPlayerByIndex_range natBackend 0 [⟨1, 5, 0⟩, ⟨2, 9, 1⟩] 3).2.1,
   (getPlayerByIndex_range natBackend 0 [⟨1, 5, 0⟩, ⟨2, 9, 1⟩] 0).2.2 1 |>.mpr
      (by decide)⟩

/-- What the hook's `isStale()` closure reads at one evaluation point:
`linkMatchRef.current?.address`, `sameChain.current(thisChainId)` and
`sameSigner.current(thisEthersSigner)`. -/
structure WorldView where
  address : Option Nat
  chainSame : Bool
  signerSame : Bool
deriving DecidableEq, Repr

/-- The `isStale()` predicate of `useLinkMatch`: the target address captured
before the asynchronous step differs from the current one, or the chain or
the signer changed. -/
def isStale (snapAddress : Nat) (w : WorldView) : Bool :=
  (w.address != some snapAddress) || !w.chainSame || !w.signerSame

/-- `Math.floor(result.score * 1000)`: the integer plaintext the submission
workflow feeds to `add32`, three decimal places of the real-valued score. -/
def scoreToPlain (score : ℚ) : ℤ :=
  Int.floor (score * 1000)

/-- Inputs read by the hook's `submitGameResult` workflow: the busy flags,
the prerequisites (`linkMatch.address`, `instance`, `ethersSigner`), the
encryption capability, and the world as seen by `isStale()` after the
encrypt step and after the transaction wait. -/
structure SubmitFlowEnv (C : Type) where
  isRefreshing : Bool
  isSubmitting : Bool
  address : Option Nat
  hasInstance : Bool
  hasSigner : Bool
  enc : Nat → C
  afterEncrypt : WorldView
  afterTx : WorldView

/-- How a run of the submission workflow ended. -/
inductive SubmitOutcome where
  | blocked
  | ignoredStale
  | submittedStale
  | submitted
deriving DecidableEq, Repr

/-- Observable result of the submission workflow: the ledger state it leaves
behind, whether the contract's `submitGameResult` transaction was sent, and
whether the player result was refreshed afterwards. -/
structure SubmitFlowResult (C : Type) where
  ledger : LedgerState C
  calledSubmit : Bool
  refreshed : Bool
  outcome : SubmitOutcome

/-- The hook's `submitGameResult` workflow: bail out if busy or without
address/instance/signer; encrypt `floor(score * 1000)`; if `isStale()` after
encryption, discard silently; otherwise send the transaction; if `isStale()`
after the wait, skip the refresh. -/
def submitFlow {C : Type} (B : Backend C) (env : SubmitFlowEnv C)
    (ledger : LedgerState C) (sender : Address) (score : ℚ) (now : Nat) :
    SubmitFlowResult C :=
  if env.isRefreshing || env.isSubmitting then
    ⟨ledger, false, false, .blocked⟩
  else
    match env.address with
    | none => ⟨ledger, false, false, .blocked⟩
    | some addr =>
      if !env.hasInstance || !env.hasSigner then
        ⟨ledger, false, false, .blocked⟩
      else
        let cipher := env.enc (scoreToPlain score).toNat
        if isStale addr env.afterEncrypt then
          ⟨ledger, false, false, .ignoredStale⟩
        else
          let ledger1 := submitGameResult B ledger sender cipher now
          if isStale addr env.afterTx then
            ⟨ledger1, true, false, .submittedStale⟩
          else
            ⟨ledger1, true, true, .submitted⟩

/-- Claim C3: when the submission workflow reaches the encrypt step and the
target ledger address, the chain or the signer changed before encryption
completed, the workflow ends in the silent `ignoredStale` outcome: the
ledger's submit is never called and the ledger state is unchanged. -/
theorem submit_stale_discard {C : Type} (B : Backend C) (env : SubmitFlowEnv C)
    (ledger : LedgerState C) (sender : Address) (score : ℚ) (now : Nat)
    (addr : Nat)
    (hbusy1 : env.isRefreshing = false) (hbusy2 : env.isSubmitting = false)
    (haddr : env.address = some addr)
    (hinst : env.hasInstance = true) (hsig : env.hasSigner = true)
    (hstale : env.afterEncrypt.address ≠ some addr
      ∨ env.afterEncrypt.chainSame = false
      ∨ env.afterEncrypt.signerSame = false) :
    (submitFlow B env ledger sender score now).ledger = ledger
      ∧ (submitFlow B env ledger sender score now).calledSubmit = false
      ∧ (submitFlow B env ledger sender score now).outcome
          = SubmitOutcome.ignoredStale := by
  obtain ⟨eRef, eSub, eAddr, eInst, eSig, eEnc, wEnc, wTx⟩ := env
  simp only at hbusy1 hbusy2 haddr hinst hsig hstale
  subst hbusy1 hbusy2 haddr hinst hsig
  have hs : isStale addr wEnc = true := by
    rcases hstale with h | h | h
    · simp [isStale, bne_iff_ne, h]
    · simp [isStale, h]
    · simp [isStale, h]
  simp [submitFlow, hs]

theorem submit_stale_discard_witness :
    (submitFlow natBackend
        ⟨false, false, some 5, true, true, fun n => n,
          ⟨some 6, true, true⟩, ⟨some 5, true, true⟩⟩
        (initState 0) 1 2 0).ledger = initState 0
      ∧ (submitFlow natBackend
          ⟨false, false, some 5, true, true, fun n => n,
            ⟨some 6, true, true⟩, ⟨some 5, true, true⟩⟩
          (initState 0) 1 2 0).calledSubmit = false
      ∧ (submitFlow natBackend
          ⟨false, false, some 5, true, true, fun n => n,
            ⟨some 6, true, true⟩, ⟨some 5, true, true⟩⟩
          (initState 0) 1 2 0).outcome = SubmitOutcome.ignoredStale :=
  submit_stale_discard natBackend
    ⟨false, false, some 5, true, true, fun n => n,
      ⟨some 6, true, true⟩, ⟨some 5, true, true⟩⟩
    (initState 0) 1 2 0 5 rfl rfl rfl rfl rfl (Or.inl (by decide))

/-- The canonical "no value" sentinel handle, `ethers.ZeroHash`. -/
def zeroHash : String :=
  "0x0000000000000000000000000000000000000000000000000000000000000000"

/-- The `{handle, clear}` pair the hook caches in `clearResultRef` after a
successful decryption (`clear` abstracted over the plaintext type `V`). -/
structure ClearValue (V : Type) where
  handle : String
  clear : V
deriving DecidableEq, Repr

/-- Inputs read by `canDecrypt` and `decryptPlayerResult`: busy flags,
prerequisites, the cached `playerResultHandle.score`, the cached cleartext,
whether `FhevmDecryptionSignature.loadOrSign` yields a signature, the two
`isStale()` evaluations around `userDecrypt`, and `userDecrypt` itself as a
map from handle to plaintext. -/
structure DecryptEnv (V : Type) where
  isRefreshing : Bool
  isDecrypting : Bool
  hasAddress : Bool
  hasInstance : Bool
  hasSigner : Bool
  playerResultHandle : Option String
  cachedClear : Option (ClearValue V)
  sigAvailable : Bool
  staleAfterSig : Bool
  staleAfterDecrypt : Bool
  backendDecrypt : String → V

/-- How a run of the decryption workflow ended, mirroring its early returns
and messages. -/
inductive DecryptOutcome where
  | skipped
  | cachedHit
  | clearedEmpty
  | sigUnavailable
  | ignoredStale
  | invalidHandle
  | decrypted
deriving DecidableEq, Repr

/-- Observable result of the decryption workflow: the cache it leaves behind
and whether the Authorization Manager (`loadOrSign`) and the backend
(`userDecrypt`) were invoked. -/
structure DecryptResult (V : Type) where
  cachedClear : Option (ClearValue V)
  calledSig : Bool
  calledDecrypt : Bool
  outcome : DecryptOutcome
deriving DecidableEq, Repr

/-- The hook's `decryptPlayerResult`: bail out if busy or missing
prerequisites or no cached handle; short-circuit when the cached cleartext
already corresponds to the handle; reset the cache on an empty handle; then
obtain the decryption signature, re-check staleness, validate the handle
format, call `userDecrypt`, re-check staleness, and cache the result. -/
def decryptPlayerResult {V : Type} (env : DecryptEnv V) : DecryptResult V :=
  if env.isRefreshing || env.isDecrypting then
    ⟨env.cachedClear, false, false, .skipped⟩
  else if !env.hasAddress || !env.hasInstance || !env.hasSigner
      || env.playerResultHandle.isNone then
    ⟨env.cachedClear, false, false, .skipped⟩
  else
    match env.playerResultHandle with
    | none => ⟨env.cachedClear, false, false, .skipped⟩
    | some h =>
      if env.cachedClear.map ClearValue.handle = some h then
        ⟨env.cachedClear, false, false, .cachedHit⟩
      else if h = "" then
        ⟨none, false, false, .clearedEmpty⟩
      else if !env.sigAvailable then
        ⟨env.cachedClear, true, false, .sigUnavailable⟩
      else if env.staleAfterSig then
        ⟨env.cachedClear, true, false, .ignoredStale⟩
      else if h = "0x" || h.length < 66 then
        ⟨env.cachedClear, true, false, .invalidHandle⟩
      else if env.staleAfterDecrypt then
        ⟨env.cachedClear, true, true, .ignoredStale⟩
      else
        ⟨some ⟨h, env.backendDecrypt h⟩, true, true, .decrypted⟩

/-- The hook's `canDecrypt` memo: address, instance and signer present, not
refreshing or decrypting, and a cached handle different from the zero-hash
sentinel. -/
def canDecrypt {V : Type} (env : DecryptEnv V) : Bool :=
  env.hasAddress && env.hasInstance && env.hasSigner
    && !env.isRefreshing && !env.isDecrypting
    && match env.playerResultHandle with
       | none => false
       | some h => h != zeroHash

/-- The decrypt action as wired in the page component
(`src/unnamed/part_000`): the button that invokes `decryptPlayerResult` is
disabled unless `canDecrypt` holds. -/
def decryptAction {V : Type} (env : DecryptEnv V) : DecryptResult V :=
  if canDecrypt env then decryptPlayerResult env
  else ⟨env.cachedClear, false, false, .skipped⟩

/-- Claim C8: if the cached cleartext was produced for the current
`playerResultHandle`, then `decryptPlayerResult` neither invokes the
Authorization Manager nor the backend decrypt call, and leaves the cached
cleartext unchanged. -/
theorem decrypt_idempotent_on_cached {V : Type} (env : DecryptEnv V)
    (h : String) (v : V)
    (hh : env.playerResultHandle = some h)
    (hc : env.cachedClear = some ⟨h, v⟩) :
    (decryptPlayerResult env).calledSig = false
      ∧ (decryptPlayerResult env).calledDecrypt = false
      ∧ (decryptPlayerResult env).cachedClear = env.cachedClear := by
  unfold decryptPlayerResult
  by_cases h1 : env.isRefreshing || env.isDecrypting
  · simp [h1]
  · by_cases h2 : !env.hasAddress || !env.hasInstance || !env.hasSigner
        || env.playerResultHandle.isNone
    · simp [h1, h2]
    · simp [h1, h2, hh, hc]
      split <;> simp

theorem decrypt_idempotent_on_cached_witness :
    (decryptPlayerResult
        ⟨false, false, true, true, true, some "0xa", some ⟨"0xa", (42 : Nat)⟩,
          true, false, false, fun _ => 0⟩).calledSig = false
      ∧ (decryptPlayerResult
          ⟨false, false, true, true, true, some "0xa", some ⟨"0xa", (42 : Nat)⟩,
            true, false, false, fun _ => 0⟩).calledDecrypt = false
      ∧ (decryptPlayerResult
          ⟨false, false, true, true, true, some "0xa", some ⟨"0xa", (42 : Nat)⟩,
            true, false, false, fun _ => 0⟩).cachedClear
        = (⟨false, false, true, true, true, some "0xa", some ⟨"0xa", (42 : Nat)⟩,
            true, false, false, fun _ => 0⟩ : DecryptEnv Nat).cachedClear :=
  decrypt_idempotent_on_cached
    ⟨false, false, true, true, true, some "0xa", some ⟨"0xa", (42 : Nat)⟩,
      true, false, false, fun _ => 0⟩ "0xa" 42 rfl rfl

theorem decryptPlayerResult_calls_nonempty {V : Type} (env : DecryptEnv V)
    (hcall : (decryptPlayerResult env).calledSig = true
      ∨ (decryptPlayerResult env).calledDecrypt = true) :
    ∃ h, env.playerResultHandle = some h ∧ h ≠ "" := by
  unfold decryptPlayerResult at hcall
  by_cases h1 : env.isRefreshing || env.isDecrypting
  · simp [h1] at hcall
  · rw [if_neg h1] at hcall
    by_cases h2 : !env.hasAddress || !env.hasInstance || !env.hasSigner
        || env.playerResultHandle.isNone
    · rw [if_pos h2] at hcall
      simp at hcall
    · rw [if_neg h2] at hcall
      cases hph : env.playerResultHandle with
      | none =>
          rw [hph] at hcall
          simp at hcall
      | some h =>
          rw [hph] at hcall
          refine ⟨h, rfl, ?_⟩
          intro hemp
          subst hemp
          split at hcall
          · simp at hcall
          · rename_i h' heq
            cases Option.some.inj heq
            split at hcall <;> simp_all

theorem canDecrypt_handle {V : Type} (env : DecryptEnv V)
    (hcd : canDecrypt env = true) :
    ∃ h, env.playerResultHandle = some h ∧ h ≠ zeroHash := by
  unfold canDecrypt at hcd
  cases hph : env.playerResultHandle with
  | none =>
      rw [hph] at hcd
      simp at hcd
  | some h =>
      rw [hph] at hcd
      simp only [Bool.and_eq_true, bne_iff_ne] at hcd
      exact ⟨h, rfl, hcd.2⟩

/-- Claim C9: the decrypt action (the `decryptPlayerResult` invocation gated
by `canDecrypt`) requests a decryption signature or calls the backend
`userDecrypt` only when a cached handle exists that is neither empty nor the
zero-hash sentinel; for an absent, empty or sentinel handle it performs no
such call and caches no plaintext (the cache is left unchanged or reset). -/
theorem decrypt_requires_handle {V : Type} (env : DecryptEnv V) :
    ((decryptAction env).calledSig = true
        ∨ (decryptAction env).calledDecrypt = true →
        ∃ h, env.playerResultHandle = some h ∧ h ≠ "" ∧ h ≠ zeroHash)
      ∧ (env.playerResultHandle = none ∨ env.playerResultHandle = some ""
            ∨ env.playerResultHandle = some zeroHash →
          (decryptAction env).calledSig = false
            ∧ (decryptAction env).calledDecrypt = false
            ∧ ((decryptAction env).cachedClear = env.cachedClear
                ∨ (decryptAction env).cachedClear = none)) := by
  constructor
  · intro hcall
    by_cases hcd : canDecrypt env = true
    · rw [decryptAction, if_pos hcd] at hcall
      obtain ⟨h, hph, hne⟩ := decryptPlayerResult_calls_nonempty env hcall
      obtain ⟨h', hph', hnz⟩ := canDecrypt_handle env hcd
      rw [hph] at hph'
      cases Option.some.inj hph'
      exact ⟨h, hph, hne, hnz⟩
    · rw [decryptAction, if_neg hcd] at hcall
      simp at hcall
  · intro habs
    by_cases hcd : canDecrypt env = true
    · rcases habs with hph | hph | hph
      · exfalso
        unfold canDecrypt at hcd
        rw [hph] at hcd
        simp at hcd
      · rw [decryptAction, if_pos hcd]
        unfold decryptPlayerResult
        by_cases h1 : env.isRefreshing || env.isDecrypting
        · simp [h1]
        · by_cases h2 : !env.hasAddress || !env.hasInstance || !env.hasSigner
              || env.playerResultHandle.isNone
          · simp [h1, h2]
          · rw [if_neg h1, if_neg h2, hph]
            by_cases hhit : env.cachedClear.map ClearValue.handle = some ""
            · simp [hhit]
            · simp [hhit]
      · exfalso
        unfold canDecrypt at hcd
        rw [hph] at hcd
        simp at hcd
    · rw [decryptAction, if_neg hcd]
      exact ⟨rfl, rfl, Or.inl rfl⟩

theorem decrypt_requires_handle_witness :
    (∃ h, (⟨false, false, true, true, true,
        some "0x0000000000000000000000000000000000000000000000000000000000000001",
        none, true, false, false, fun _ => 7⟩ :
          DecryptEnv Nat).playerResultHandle = some h ∧ h ≠ "" ∧ h ≠ zeroHash)
      ∧ ((decryptAction (⟨false, false, true, true, true, some zeroHash,
            none, true, false, false, fun _ => 7⟩ :
              DecryptEnv Nat)).calledSig = false
          ∧ (decryptAction (⟨false, false, true, true, true, some zeroHash,
              none, true, false, false, fun _ => 7⟩ :
                DecryptEnv Nat)).calledDecrypt = false
          ∧ ((decryptAction (⟨false, false, true, true, true, some zeroHash,
              none, true, false, false, fun _ => 7⟩ :
                DecryptEnv Nat)).cachedClear
              = (⟨false, false, true, true, true, some zeroHash,
                  none, true, false, false, fun _ => 7⟩ :
                    DecryptEnv Nat).cachedClear
            ∨ (decryptAction (⟨false, false, true, true, true, some zeroHash,
                none, true, false, false, fun _ => 7⟩ :
                  DecryptEnv Nat)).cachedClear = none)) :=
  ⟨(decrypt_requires_handle
      ⟨false, false, true, true, true,
        some "0x0000000000000000000000000000000000000000000000000000000000000001",
        none, true, false, false, fun _ => 7⟩).1 (Or.inl (by decide)),
   (decrypt_requires_handle
      ⟨false, false, true, true, true, some zeroHash,
        none, true, false, false, fun _ => 7⟩).2 (Or.inr (Or.inr rfl))⟩

/-- `Number(clearResult.score.clear) / 1000`: the decrypted integer divided
by 1000, as displayed to the owner by the page component (`toFixed(3)` only
formats this value). -/
def displayedDecrypted (clear : Nat) : ℚ :=
  (clear : ℚ) / 1000

/-- Claim C10: on the successful submission path the plaintext encrypted and
submitted is `floor(score * 1000)`, a nonnegative integer below `2^32` under
the stated range bound (so it fits the 32-bit unsigned `add32` encoding) —
the ledger never receives `score` itself; the decrypted value displayed to
the owner is that integer divided by 1000, which truncates `score` to three
decimal places (within `1/1000` below it) and does not in general reproduce
`score` exactly. -/
theorem submitted_plaintext_truncates {C : Type} (B : Backend C)
    (env : SubmitFlowEnv C) (ledger : LedgerState C) (sender : Address)
    (score : ℚ) (now : Nat) (addr : Nat)
    (hbusy1 : env.isRefreshing = false) (hbusy2 : env.isSubmitting = false)
    (haddr : env.address = some addr)
    (hinst : env.hasInstance = true) (hsig : env.hasSigner = true)
    (hfresh : isStale addr env.afterEncrypt = false)
    (hpos : 0 ≤ score) (hrange : score * 1000 < 2 ^ 32) :
    (submitFlow B env ledger sender score now).ledger
        = submitGameResult B ledger sender
            (env.enc (scoreToPlain score).toNat) now
      ∧ (submitFlow B env ledger sender score now).calledSubmit = true
      ∧ ((scoreToPlain score).toNat : ℤ) = scoreToPlain score
      ∧ (scoreToPlain score).toNat < 2 ^ 32
      ∧ displayedDecrypted (scoreToPlain score).toNat ≤ score
      ∧ score < displayedDecrypted (scoreToPlain score).toNat + 1 / 1000
      ∧ ∃ s0 : ℚ, 0 ≤ s0 ∧ displayedDecrypted (scoreToPlain s0).toNat ≠ s0 := by
  have hnn : (0 : ℚ) ≤ score * 1000 := by positivity
  have hfloor0 : 0 ≤ scoreToPlain score := Int.floor_nonneg.mpr hnn
  have htn : ((scoreToPlain score).toNat : ℤ) = scoreToPlain score :=
    Int.toNat_of_nonneg hfloor0
  have hflt : scoreToPlain score < (2 : ℤ) ^ 32 := by
    rw [scoreToPlain]
    apply Int.floor_lt.mpr
    push_cast
    exact hrange
  refine ⟨?_, ?_, htn, ?_, ?_, ?_, ?_⟩
  · obtain ⟨eRef, eSub, eAddr, eInst, eSig, eEnc, wEnc, wTx⟩ := env
    simp only at hbusy1 hbusy2 haddr hinst hsig hfresh
    subst hbusy1 hbusy2 haddr hinst hsig
    by_cases hTx : isStale addr wTx = true
    · simp [submitFlow, hfresh, hTx]
    · simp [submitFlow, hfresh, hTx]
  · obtain ⟨eRef, eSub, eAddr, eInst, eSig, eEnc, wEnc, wTx⟩ := env
    simp only at hbusy1 hbusy2 haddr hinst hsig hfresh
    subst hbusy1 hbusy2 haddr hinst hsig
    by_cases hTx : isStale addr wTx = true
    · simp [submitFlow, hfresh, hTx]
    · simp [submitFlow, hfresh, hTx]
  · omega
  · have hfl : ((scoreToPlain score : ℤ) : ℚ) ≤ score * 1000 := by
      rw [scoreToPlain]
      exact Int.floor_le _
    have hq : ((scoreToPlain score).toNat : ℚ) = ((scoreToPlain score : ℤ) : ℚ) := by
      rw [← htn]
      norm_cast
    rw [displayedDecrypted, hq]
    linarith
  · have hfu : score * 1000 < ((scoreToPlain score : ℤ) : ℚ) + 1 := by
      rw [scoreToPlain]
      exact Int.lt_floor_add_one _
    have hq : ((scoreToPlain score).toNat : ℚ) = ((scoreToPlain score : ℤ) : ℚ) := by
      rw [← htn]
      norm_cast
    rw [displayedDecrypted, hq]
    linarith
  · refine ⟨1 / 2000, by norm_num, ?_⟩
    have h0 : scoreToPlain (1 / 2000 : ℚ) = 0 := by
      rw [scoreToPlain]
      have he : (1 / 2000 : ℚ) * 1000 = 1 / 2 := by norm_num
      rw [he, Int.floor_eq_zero_iff]
      constructor
      · norm_num
      · norm_num
    rw [h0]
    rw [displayedDecrypted]
    norm_num

theorem submitted_plaintext_truncates_witness :
    (submitFlow natBackend
        ⟨false, false, some 5, true, true, fun n => n,
          ⟨some 5, true, true⟩, ⟨some 5, true, true⟩⟩
        (initState 0) 1 (5 / 2) 0).ledger
        = submitGameResult natBackend (initState 0) 1
            ((fun n => n) (scoreToPlain (5 / 2)).toNat) 0
      ∧ (submitFlow natBackend
          ⟨false, false, some 5, true, true, fun n => n,
            ⟨some 5, true, true⟩, ⟨some 5, true, true⟩⟩
          (initState 0) 1 (5 / 2) 0).calledSubmit = true
      ∧ ((scoreToPlain (5 / 2)).toNat : ℤ) = scoreToPlain (5 / 2)
      ∧ (scoreToPlain (5 / 2)).toNat < 2 ^ 32
      ∧ displayedDecrypted (scoreToPlain (5 / 2)).toNat ≤ 5 / 2
      ∧ (5 / 2 : ℚ) < displayedDecrypted (scoreToPlain (5 / 2)).toNat + 1 / 1000
      ∧ ∃ s0 : ℚ, 0 ≤ s0 ∧ displayedDecrypted (scoreToPlain s0).toNat ≠ s0 :=
  submitted_plaintext_truncates natBackend
    ⟨false, false, some 5, true, true, fun n => n,
      ⟨some 5, true, true⟩, ⟨some 5, true, true⟩⟩
    (initState 0) 1 (5 / 2) 0 5 rfl rfl rfl rfl rfl (by decide)
    (by norm_num) (by norm_num)
